import Mathlib

/-!
Shallow embedding of the trading core of `src/app1.py` (an educational
intraday trading bot built on a virtual cash ledger).  Prices and cash
are modelled as exact rationals, Python `int` quantities as `ℤ`, the
`st.session_state` triple (balance, portfolio, trade_log) as the
`Ledger` structure.  Exception paths are modelled explicitly: exceptions
the source catches become the skip branches the code takes, uncaught
ones become `none` results or a crash flag.
-/

namespace AlgoTrader

/-- Instrument identifiers are plain ticker strings. -/
abbrev Instrument := String

/-- One bar as consumed by the bot: only the `Open` and `Close` columns
of the yfinance frame are ever read (app1.py lines 56-57 and 102). -/
structure Bar where
  Open : ℚ
  Close : ℚ
deriving DecidableEq

/-- A market snapshot: for each instrument that has data, the most
recent bar (`data[ticker]` plus `.iloc[-1]` in the source).  Instruments
absent from the association list model tickers whose lookup raises
`KeyError` (missing data) or whose frame is empty. -/
abbrev Snapshot := List (Instrument × Bar)

/-- Lookup of `data[ticker]` followed by `.iloc[-1]`. -/
def lookupBar (data : Snapshot) (t : Instrument) : Option Bar :=
  (data.find? (fun e => e.1 == t)).map (fun e => e.2)

/-- `INITIAL_CAPITAL = 1000000` (app1.py line 10). -/
def INITIAL_CAPITAL : ℚ := 1000000

/-- `MAX_ALLOCATION_PER_TRADE = 0.20` (app1.py line 11). -/
def MAX_ALLOCATION_PER_TRADE : ℚ := 0.20

/-- `TARGET_PROFIT = 0.02` (app1.py line 12). -/
def TARGET_PROFIT : ℚ := 0.02

/-- `STOP_LOSS = 0.01` (app1.py line 13). -/
def STOP_LOSS : ℚ := 0.01

/-- The fixed NSE watchlist (app1.py lines 19-20). -/
def WATCHLIST : List Instrument :=
  ["RELIANCE.NS", "TCS.NS", "INFY.NS", "HDFCBANK.NS", "ICICIBANK.NS",
   "SBIN.NS", "BHARTIARTL.NS", "ITC.NS", "KOTAKBANK.NS", "LT.NS"]

/-- One buy signal as produced by `analyze_market`: the dict with keys
`ticker`, `price` (the bar close) and `change` (the momentum). -/
structure Signal where
  ticker : Instrument
  price : ℚ
  change : ℚ
deriving DecidableEq

/-- The signal-collection loop of `analyze_market` (app1.py lines
48-69) over an explicit watchlist.  `none` models the uncaught
`ZeroDivisionError` raised by `(close_price - open_price) / open_price`
when a processed bar has a zero open; the loop catches only `KeyError`
(a ticker absent from the frame), which is the skip branch here. -/
def gather (data : Snapshot) : List Instrument → Option (List Signal)
  | [] => some []
  | t :: rest =>
    match lookupBar data t with
    | none => gather data rest
    | some b =>
      if b.Open = 0 then none
      else
        match gather data rest with
        | none => none
        | some tail =>
          if (b.Close - b.Open) / b.Open > 0.005 then
            some (⟨t, b.Close, (b.Close - b.Open) / b.Open⟩ :: tail)
          else some tail

/-- The comparison behind `sorted(signals, key=lambda x: x['change'],
reverse=True)` (app1.py line 71): `a` may precede `b` when the momentum
of `b` does not exceed that of `a`.  Python list sort is stable, and
`List.insertionSort` with this relation is the same stable descending
sort. -/
def sigGE (a b : Signal) : Prop := b.change ≤ a.change

instance : DecidableRel sigGE :=
  fun a b => inferInstanceAs (Decidable (b.change ≤ a.change))

instance : IsTotal Signal sigGE := ⟨fun a b => le_total b.change a.change⟩

instance : IsTrans Signal sigGE := ⟨fun _ _ _ h1 h2 => le_trans h2 h1⟩

/-- `analyze_market` (app1.py lines 39-71), generalised over the
watchlist.  Returns `none` when the Python function would raise
(division by a zero open price), otherwise the ranked signal list. -/
def analyze_market_w (wl : List Instrument) : Option Snapshot → Option (List Signal)
  | none => some []
  | some data =>
    if data.isEmpty then some []
    else (gather data wl).map (List.insertionSort sigGE)

/-- `analyze_market` exactly as in the source, over the fixed
`WATCHLIST`. -/
def analyze_market (data : Option Snapshot) : Option (List Signal) :=
  analyze_market_w WATCHLIST data

/-- An open position: the dict with keys `qty` and `buy_price`
(app1.py line 147). -/
structure Position where
  qty : ℤ
  buy_price : ℚ
deriving DecidableEq

/-- Trade-log actions. -/
inductive Action where
  | BUY
  | SELL
deriving DecidableEq

/-- One entry of `st.session_state.trade_log` (app1.py lines 111-118
and 148-155).  `price` and `pnl` are stored rounded to two decimals,
exactly as the source rounds them; the wall-clock timestamp column
carries no algorithmic content and is omitted. -/
structure TradeRecord where
  action : Action
  ticker : Instrument
  price : ℚ
  qty : ℤ
  pnl : ℚ
deriving DecidableEq

/-- The virtual account held in `st.session_state`: cash balance, open
positions (insertion-ordered, as a Python dict is), and the append-only
trade log. -/
structure Ledger where
  balance : ℚ
  portfolio : List (Instrument × Position)
  trade_log : List TradeRecord
deriving DecidableEq

/-- A fresh session ledger with starting cash `c` (app1.py lines
75-80). -/
def initLedger (c : ℚ) : Ledger := ⟨c, [], []⟩

/-- Python `round` to an integer: round half to even. -/
def pyRoundInt (x : ℚ) : ℤ :=
  if x - ⌊x⌋ < 1/2 then ⌊x⌋
  else if 1/2 < x - ⌊x⌋ then ⌊x⌋ + 1
  else if ⌊x⌋ % 2 = 0 then ⌊x⌋ else ⌊x⌋ + 1

/-- Python `round(x, 2)` on exact values. -/
def pyRound2 (x : ℚ) : ℚ := (pyRoundInt (x * 100) : ℚ) / 100

/-- Python `ticker in st.session_state.portfolio` (app1.py line 135). -/
def hasKey (P : List (Instrument × Position)) (t : Instrument) : Bool :=
  P.any (fun e => e.1 == t)

/-- Dict lookup `portfolio[ticker]`. -/
def lookupPos (P : List (Instrument × Position)) (t : Instrument) : Option Position :=
  (P.find? (fun e => e.1 == t)).map (fun e => e.2)

/-- `data[ticker]['Close'].iloc[-1]` (app1.py line 102); `none` covers
every exception path the surrounding `try` block catches there (`data`
is `None`, the ticker missing, empty data). -/
def getClose (data : Option Snapshot) (t : Instrument) : Option ℚ :=
  match data with
  | none => none
  | some d => (lookupBar d t).map Bar.Close

/-- The body of the buy loop for one candidate (app1.py lines 130-155):
skip if already owned, size the order from current cash, and mutate
balance, portfolio and log when `allocatable_cash > price`.  `none`
models the uncaught `ZeroDivisionError` of `allocatable_cash // price`
when `price = 0` (that division is only reached when
`allocatable_cash > 0`). -/
def buyStep (L : Ledger) (t : Instrument) (price : ℚ) : Option Ledger :=
  if hasKey L.portfolio t then some L
  else
    let allocatable := L.balance * MAX_ALLOCATION_PER_TRADE
    if allocatable > price then
      if price = 0 then none
      else
        let qty : ℤ := ⌊allocatable / price⌋
        let cost : ℚ := (qty : ℚ) * price
        some ⟨L.balance - cost,
              L.portfolio ++ [(t, ⟨qty, price⟩)],
              L.trade_log ++ [⟨Action.BUY, t, pyRound2 price, qty, 0⟩]⟩
    else some L

/-- The buy loop over the ranked candidates (app1.py line 130).  The
`Bool` result records whether the loop died with an uncaught exception;
mutations made before the crash persist, because `st.session_state`
survives a script error. -/
def buyPhase : List Signal → Ledger → Ledger × Bool
  | [], L => (L, false)
  | s :: rest, L =>
    match buyStep L s.ticker s.price with
    | none => (L, true)
    | some L1 => buyPhase rest L1

/-- The sell loop (app1.py lines 100-121): walk the open positions, and
for each one whose current price is available apply the exit rule,
mutating balance and log and collecting the ticker for deletion.  The
`try/except/continue` turns every per-position failure (missing data,
zero entry price) into a skip; a zero entry price also yields a skip
here because the rational `pnl_pct` is then 0, inside both
thresholds. -/
def sellLoop (data : Option Snapshot) :
    List (Instrument × Position) → ℚ → List TradeRecord → List Instrument →
    ℚ × List TradeRecord × List Instrument
  | [], bal, log, ts => (bal, log, ts)
  | (t, pos) :: rest, bal, log, ts =>
    match getClose data t with
    | none => sellLoop data rest bal log ts
    | some cp =>
      if (cp - pos.buy_price) / pos.buy_price ≥ TARGET_PROFIT ∨
         (cp - pos.buy_price) / pos.buy_price ≤ -STOP_LOSS then
        sellLoop data rest (bal + (pos.qty : ℚ) * cp)
          (log ++ [⟨Action.SELL, t, pyRound2 cp, pos.qty,
                    pyRound2 ((pos.qty : ℚ) * cp - (pos.qty : ℚ) * pos.buy_price)⟩])
          (ts ++ [t])
      else sellLoop data rest bal log ts

/-- Step 1 of `execute_trade_cycle` (app1.py lines 96-124): run the
sell loop over the portfolio, then delete the sold tickers. -/
def sellPhase (data : Option Snapshot) (L : Ledger) : Ledger :=
  ⟨(sellLoop data L.portfolio L.balance L.trade_log []).1,
   L.portfolio.filter
     (fun e => !((sellLoop data L.portfolio L.balance L.trade_log []).2.2.contains e.1)),
   (sellLoop data L.portfolio L.balance L.trade_log []).2.1⟩

/-- One full decision cycle (app1.py lines 86-157).  The market-hours
predicate and the fetched snapshot are the two external inputs (`none`
is a feed failure, `get_live_data` returning `None`).  The `Bool` is
`true` when the cycle died with an uncaught exception; mutations
already applied persist, as `st.session_state` survives the error. -/
def execute_trade_cycle (marketOpen : Bool) (data : Option Snapshot) (L : Ledger) :
    Ledger × Bool :=
  if marketOpen then
    let L1 := sellPhase data L
    match analyze_market data with
    | none => (L1, true)
    | some opps => buyPhase opps L1
  else (L, false)

/-- Iterated cycles: each list element supplies that cycle's market-open
bit and fetched snapshot. -/
def runCycles : List (Bool × Option Snapshot) → Ledger → Ledger
  | [], L => L
  | c :: rest, L => runCycles rest (execute_trade_cycle c.1 c.2 L).1

/-- The unconditional sell mutation (app1.py lines 109-118 plus the
deferred deletion of line 124) for one ticker at current price `cp`:
the ledger-level sell application that the cycle performs under the
exit guard. -/
def applySell (L : Ledger) (t : Instrument) (cp : ℚ) : Ledger :=
  match lookupPos L.portfolio t with
  | none => L
  | some pos =>
    ⟨L.balance + (pos.qty : ℚ) * cp,
     L.portfolio.filter (fun e => !(e.1 == t)),
     L.trade_log ++ [⟨Action.SELL, t, pyRound2 cp, pos.qty,
                      pyRound2 ((pos.qty : ℚ) * cp - (pos.qty : ℚ) * pos.buy_price)⟩]⟩

/-- One guarded sell application (app1.py lines 100-124 restricted to a
single position): sell exactly when the exit rule fires. -/
def sellStep (L : Ledger) (t : Instrument) (cp : ℚ) : Ledger :=
  match lookupPos L.portfolio t with
  | none => L
  | some pos =>
    if (cp - pos.buy_price) / pos.buy_price ≥ TARGET_PROFIT ∨
       (cp - pos.buy_price) / pos.buy_price ≤ -STOP_LOSS then
      applySell L t cp
    else L

/-- One ledger mutation request: a buy candidate at its signal price, or
an exit check against a current price. -/
inductive Event where
  | buy (t : Instrument) (p : ℚ)
  | sell (t : Instrument) (cp : ℚ)
deriving DecidableEq

/-- The price carried by an event. -/
def Event.price : Event → ℚ
  | .buy _ p => p
  | .sell _ cp => cp

/-- Apply one event the way the cycle does; a crashing buy (uncaught
`ZeroDivisionError`) mutates nothing. -/
def applyEvent (L : Ledger) : Event → Ledger
  | .buy t p => (buyStep L t p).getD L
  | .sell t cp => sellStep L t cp

/-- A sequence of buy and sell applications. -/
def runEvents (L : Ledger) : List Event → Ledger
  | [] => L
  | e :: es => runEvents (applyEvent L e) es

/-- The position-sizing rule of app1.py lines 139-143, with the
allocation limit as a parameter (the source fixes it to
`MAX_ALLOCATION_PER_TRADE`): the computed quantity, with the skipped
case reported as quantity 0. -/
def positionSize (cash limit price : ℚ) : ℤ :=
  if cash * limit > price then ⌊cash * limit / price⌋ else 0

/-- Σ over the log of BUY cost, computed from the recorded price and
recorded quantity. -/
def logBuySum (log : List TradeRecord) : ℚ :=
  (log.map (fun r => if r.action = Action.BUY then r.price * (r.qty : ℚ) else 0)).sum

/-- Σ over the log of SELL proceeds, computed from the recorded price
and recorded quantity. -/
def logSellSum (log : List TradeRecord) : ℚ :=
  (log.map (fun r => if r.action = Action.SELL then r.price * (r.qty : ℚ) else 0)).sum

/-- A price on the cent grid: an integer multiple of 0.01. -/
def centPrice (q : ℚ) : Prop := (q * 100).den = 1

/-- Ticker constant for concrete instances. -/
def tickREL : Instrument := "RELIANCE.NS"

/-- Ticker constant for concrete instances. -/
def tickTCS : Instrument := "TCS.NS"

/-- Ticker constant for concrete instances. -/
def tickINF : Instrument := "INFY.NS"

/-! Helper lemmas about the buy step. -/

/-- A candidate already owned is skipped with no mutation. -/
lemma buyStep_of_key (L : Ledger) (t : Instrument) (p : ℚ)
    (h : hasKey L.portfolio t = true) : buyStep L t p = some L := by
  simp [buyStep, h]

/-- When the allocatable cash does not exceed the price, the candidate is
skipped with no mutation. -/
lemma buyStep_no_alloc (L : Ledger) (t : Instrument) (p : ℚ)
    (h : ¬ L.balance * MAX_ALLOCATION_PER_TRADE > p) : buyStep L t p = some L := by
  by_cases hk : hasKey L.portfolio t <;> simp [buyStep, hk, h]

/-- The executed-buy branch, written out. -/
lemma buyStep_exec (L : Ledger) (t : Instrument) (p : ℚ)
    (hk : hasKey L.portfolio t = false)
    (hgt : L.balance * MAX_ALLOCATION_PER_TRADE > p) (hp : p ≠ 0) :
    buyStep L t p =
      some ⟨L.balance - (⌊L.balance * MAX_ALLOCATION_PER_TRADE / p⌋ : ℚ) * p,
        L.portfolio ++ [(t, ⟨⌊L.balance * MAX_ALLOCATION_PER_TRADE / p⌋, p⟩)],
        L.trade_log ++ [⟨Action.BUY, t, pyRound2 p,
          ⌊L.balance * MAX_ALLOCATION_PER_TRADE / p⌋, 0⟩]⟩ := by
  simp [buyStep, hk, hgt, hp]

/-- The crash branch: a zero-priced candidate with positive allocatable
cash raises an uncaught division-by-zero error. -/
lemma buyStep_crash (L : Ledger) (t : Instrument)
    (hk : hasKey L.portfolio t = false)
    (hgt : L.balance * MAX_ALLOCATION_PER_TRADE > 0) : buyStep L t 0 = none := by
  simp [buyStep, hk, hgt]

lemma alloc_le_self {b : ℚ} (hb : 0 ≤ b) : b * MAX_ALLOCATION_PER_TRADE ≤ b :=
  mul_le_of_le_one_right hb (by norm_num [MAX_ALLOCATION_PER_TRADE])

lemma alloc_nonneg {b : ℚ} (hb : 0 ≤ b) : 0 ≤ b * MAX_ALLOCATION_PER_TRADE :=
  mul_nonneg hb (by norm_num [MAX_ALLOCATION_PER_TRADE])

lemma cost_le_alloc {a p : ℚ} (hp : 0 < p) : (⌊a / p⌋ : ℚ) * p ≤ a := by
  calc (⌊a / p⌋ : ℚ) * p ≤ (a / p) * p :=
        mul_le_mul_of_nonneg_right (Int.floor_le _) hp.le
    _ = a := div_mul_cancel₀ a hp.ne'

lemma qty_nonneg {a p : ℚ} (ha : 0 ≤ a) (hp : 0 < p) : 0 ≤ ⌊a / p⌋ :=
  Int.floor_nonneg.2 (div_nonneg ha hp.le)

/-- Cash stays non-negative across a (non-crashing) buy step with a
non-negative price. -/
lemma buyStep_balance_nonneg {L L1 : Ledger} {t : Instrument} {p : ℚ}
    (hb : 0 ≤ L.balance) (hp : 0 ≤ p) (h : buyStep L t p = some L1) :
    0 ≤ L1.balance := by
  cases hk : hasKey L.portfolio t with
  | true =>
    rw [buyStep_of_key L t p hk] at h
    obtain rfl := Option.some_inj.mp h
    exact hb
  | false =>
    by_cases hgt : L.balance * MAX_ALLOCATION_PER_TRADE > p
    · rcases eq_or_lt_of_le hp with hp0 | hpos
      · rw [← hp0, buyStep_crash L t hk (by rwa [← hp0] at hgt)] at h
        cases h
      · rw [buyStep_exec L t p hk hgt (ne_of_gt hpos)] at h
        obtain rfl := Option.some_inj.mp h
        have h1 : (⌊L.balance * MAX_ALLOCATION_PER_TRADE / p⌋ : ℚ) * p ≤
            L.balance * MAX_ALLOCATION_PER_TRADE := cost_le_alloc hpos
        have h2 : L.balance * MAX_ALLOCATION_PER_TRADE ≤ L.balance := alloc_le_self hb
        show 0 ≤ L.balance - (⌊L.balance * MAX_ALLOCATION_PER_TRADE / p⌋ : ℚ) * p
        linarith
    · rw [buyStep_no_alloc L t p hgt] at h
      obtain rfl := Option.some_inj.mp h
      exact hb

/-- Position quantities stay non-negative across a buy step with a
non-negative price and non-negative cash. -/
lemma buyStep_qtys {L L1 : Ledger} {t : Instrument} {p : ℚ}
    (hb : 0 ≤ L.balance) (hp : 0 ≤ p)
    (hq : ∀ e ∈ L.portfolio, 0 ≤ e.2.qty) (h : buyStep L t p = some L1) :
    ∀ e ∈ L1.portfolio, 0 ≤ e.2.qty := by
  cases hk : hasKey L.portfolio t with
  | true =>
    rw [buyStep_of_key L t p hk] at h
    obtain rfl := Option.some_inj.mp h
    exact hq
  | false =>
    by_cases hgt : L.balance * MAX_ALLOCATION_PER_TRADE > p
    · rcases eq_or_lt_of_le hp with hp0 | hpos
      · rw [← hp0, buyStep_crash L t hk (by rwa [← hp0] at hgt)] at h
        cases h
      · rw [buyStep_exec L t p hk hgt (ne_of_gt hpos)] at h
        obtain rfl := Option.some_inj.mp h
        intro e he
        rcases List.mem_append.1 he with h1 | h1
        · exact hq e h1
        · rcases List.mem_singleton.1 h1 with rfl
          exact qty_nonneg (alloc_nonneg hb) hpos
    · rw [buyStep_no_alloc L t p hgt] at h
      obtain rfl := Option.some_inj.mp h
      exact hq

/-! Helper lemmas about the sell step. -/

lemma lookupPos_mem {P : List (Instrument × Position)} {t : Instrument}
    {pos : Position} (h : lookupPos P t = some pos) :
    ∃ e ∈ P, e.2 = pos ∧ e.1 = t := by
  rcases Option.map_eq_some'.1 h with ⟨e, he, rfl⟩
  refine ⟨e, List.mem_of_find?_eq_some he, rfl, ?_⟩
  have := List.find?_some he
  simpa using this

/-- Cash stays non-negative across a guarded sell at a non-negative
price, provided all position quantities are non-negative. -/
lemma sellStep_balance_nonneg {L : Ledger} {t : Instrument} {cp : ℚ}
    (hb : 0 ≤ L.balance) (hcp : 0 ≤ cp)
    (hq : ∀ e ∈ L.portfolio, 0 ≤ e.2.qty) : 0 ≤ (sellStep L t cp).balance := by
  unfold sellStep
  cases hl : lookupPos L.portfolio t with
  | none => exact hb
  | some pos =>
    by_cases hcond : (cp - pos.buy_price) / pos.buy_price ≥ TARGET_PROFIT ∨
        (cp - pos.buy_price) / pos.buy_price ≤ -STOP_LOSS
    · simp only [hcond, if_true]
      unfold applySell
      rw [hl]
      rcases lookupPos_mem hl with ⟨e, he, h2, _⟩
      have hqe : (0 : ℚ) ≤ (pos.qty : ℚ) := by
        exact_mod_cast h2 ▸ hq e he
      exact add_nonneg hb (mul_nonneg hqe hcp)
    · simp only [hcond, if_false]
      exact hb

/-- Position quantities are preserved by a guarded sell (positions are
only removed, never rewritten). -/
lemma sellStep_qtys {L : Ledger} {t : Instrument} {cp : ℚ}
    (hq : ∀ e ∈ L.portfolio, 0 ≤ e.2.qty) :
    ∀ e ∈ (sellStep L t cp).portfolio, 0 ≤ e.2.qty := by
  unfold sellStep
  cases hl : lookupPos L.portfolio t with
  | none => exact hq
  | some pos =>
    by_cases hcond : (cp - pos.buy_price) / pos.buy_price ≥ TARGET_PROFIT ∨
        (cp - pos.buy_price) / pos.buy_price ≤ -STOP_LOSS
    · simp only [hcond, if_true]
      unfold applySell
      rw [hl]
      intro e he
      exact hq e (List.mem_of_mem_filter he)
    · simp only [hcond, if_false]
      exact hq

/-- The state invariant behind cash safety: non-negative cash and
non-negative position quantities. -/
def LedgerInv (L : Ledger) : Prop :=
  0 ≤ L.balance ∧ ∀ e ∈ L.portfolio, 0 ≤ e.2.qty

lemma applyEvent_inv {L : Ledger} (h : LedgerInv L) (e : Event)
    (hp : 0 ≤ e.price) : LedgerInv (applyEvent L e) := by
  cases e with
  | buy t p =>
    cases hb : buyStep L t p with
    | none => simpa [applyEvent, hb] using h
    | some L1 =>
      simp only [applyEvent, hb, Option.getD_some]
      exact ⟨buyStep_balance_nonneg h.1 hp hb, buyStep_qtys h.1 hp h.2 hb⟩
  | sell t cp =>
    exact ⟨sellStep_balance_nonneg h.1 hp h.2, sellStep_qtys h.2⟩

lemma runEvents_inv : ∀ (es : List Event) (L : Ledger), LedgerInv L →
    (∀ e ∈ es, 0 ≤ e.price) → LedgerInv (runEvents L es)
  | [], _, h, _ => h
  | e :: es, L, h, hp =>
    runEvents_inv es (applyEvent L e)
      (applyEvent_inv h e (hp e (List.mem_cons_self e es)))
      (fun x hx => hp x (List.mem_cons_of_mem e hx))

/-- C2.  For every sequence of buy and sell applications starting from a
non-negative initial cash balance, with non-negative event prices (the
domain assumption: no negative market prices), the cash balance is
non-negative after every step: every prefix of applications is itself a
sequence, so this states non-negativity of cash at every reachable
state. -/
theorem C2_cash_nonneg (c0 : ℚ) (es : List Event) (h0 : 0 ≤ c0)
    (hp : ∀ e ∈ es, 0 ≤ e.price) :
    0 ≤ (runEvents (initLedger c0) es).balance :=
  (runEvents_inv es (initLedger c0)
    ⟨h0, by intro e he; cases he⟩ hp).1

/-- Witness for C2 at a concrete sequence. -/
theorem C2_cash_nonneg_witness :
    0 ≤ (runEvents (initLedger 10) [Event.buy tickTCS 2]).balance :=
  C2_cash_nonneg 10 [Event.buy tickTCS 2] (by norm_num)
    (by intro e he; rcases List.mem_singleton.1 he with rfl; norm_num [Event.price])

/-- C4.  The code has no explicit `InsufficientFunds` value: an
unaffordable candidate is skipped with the ledger unchanged (the spec
treats these errors as non-fatal skips).  Stated on the code: (1) when
cash is below the price of even one unit the buy application leaves the
ledger unchanged, (2) a buy application never drives cash negative (the
internally sized quantity never costs more than available cash), and
(3) Scenario E: with cash=10, price=50 the ledger is unchanged. -/
theorem C4_insufficient_funds :
    (∀ (L : Ledger) (t : Instrument) (p : ℚ), 0 ≤ L.balance → L.balance < p →
      buyStep L t p = some L) ∧
    (∀ (L L1 : Ledger) (t : Instrument) (p : ℚ), 0 ≤ L.balance → 0 ≤ p →
      buyStep L t p = some L1 → 0 ≤ L1.balance) ∧
    buyStep (initLedger 10) tickREL 50 = some (initLedger 10) := by
  refine ⟨?_, ?_, by with_unfolding_all rfl⟩
  · intro L t p hb hlt
    exact buyStep_no_alloc L t p (not_lt.2 ((alloc_le_self hb).trans hlt.le))
  · intro L L1 t p hb hp h
    exact buyStep_balance_nonneg hb hp h

/-- Witness for C4 at Scenario E. -/
theorem C4_insufficient_funds_witness :
    buyStep (initLedger 10) tickTCS 50 = some (initLedger 10) :=
  C4_insufficient_funds.1 (initLedger 10) tickTCS 50 (by norm_num [initLedger])
    (by norm_num [initLedger])

/-- C5 counterexample.  The claim asserts the sizer always yields
`floor((cash × allocationLimit) / price)`; at the boundary
`cash × allocationLimit = price` the code skips (quantity 0) while the
floor formula yields 1, so the universally quantified clause fails:
cash=250, limit=0.2, price=50 gives allocatable exactly 50. -/
theorem C5_counterexample :
    positionSize 250 0.2 50 = 0 ∧ (⌊(250 : ℚ) * 0.2 / 50⌋ : ℤ) = 1 := by
  constructor <;> with_unfolding_all rfl

/-- C5 amended.  The sizer yields `floor((cash × allocationLimit) / price)`
whenever `cash × allocationLimit > price` (stated via the two defining
floor inequalities, so the value really is that floor), yields 0
whenever `cash × allocationLimit ≤ price` (including the boundary), and
Scenario A holds: cash=100000, allocation=0.20, price=50 yields 400. -/
theorem C5_amended :
    (∀ cash limit price : ℚ, price < cash * limit →
      positionSize cash limit price = ⌊cash * limit / price⌋ ∧
      (positionSize cash limit price : ℚ) ≤ cash * limit / price ∧
      cash * limit / price - 1 < (positionSize cash limit price : ℚ)) ∧
    (∀ cash limit price : ℚ, cash * limit ≤ price →
      positionSize cash limit price = 0) ∧
    positionSize 100000 0.2 50 = 400 := by
  refine ⟨?_, ?_, by with_unfolding_all rfl⟩
  · intro cash limit price h
    have he : positionSize cash limit price = ⌊cash * limit / price⌋ := by
      unfold positionSize
      exact if_pos h
    refine ⟨he, ?_, ?_⟩
    · rw [he]
      exact Int.floor_le _
    · rw [he]
      exact Int.sub_one_lt_floor _
  · intro cash limit price h
    unfold positionSize
    exact if_neg (not_lt.2 h)

/-- Witness for C5 amended at Scenario A. -/
theorem C5_amended_witness :
    positionSize 100000 0.2 50 = ⌊(100000 : ℚ) * 0.2 / 50⌋ :=
  (C5_amended.1 100000 0.2 50 (by norm_num)).1

lemma sellLoop_nodata : ∀ (items : List (Instrument × Position)) (bal : ℚ)
    (log : List TradeRecord) (ts : List Instrument),
    sellLoop none items bal log ts = (bal, log, ts)
  | [], _, _, _ => rfl
  | (_, _) :: rest, bal, log, ts => sellLoop_nodata rest bal log ts

/-- A cycle whose snapshot fetch failed changes nothing in the ledger. -/
lemma sellPhase_nodata (L : Ledger) : sellPhase none L = L := by
  unfold sellPhase
  simp only [sellLoop_nodata]
  have hp : (fun (e : Instrument × Position) =>
      !(List.contains ([] : List Instrument) e.1)) = fun _ => true := by
    funext e
    rfl
  rw [hp, List.filter_true]

/-- C8.  If the snapshot fetch fails (`get_live_data` returns `None`),
the whole trade cycle applies no mutations: every position lookup in the
sell loop raises and is caught, and `analyze_market` returns no
candidates, so cash, positions and the trade log are exactly as before
the cycle (and the cycle does not crash). -/
theorem C8_feed_failure_no_mutation (mo : Bool) (L : Ledger) :
    execute_trade_cycle mo none L = (L, false) := by
  cases mo with
  | false => rfl
  | true =>
    have h1 : sellPhase none L = L := sellPhase_nodata L
    have h2 : analyze_market none = some [] := rfl
    simp [execute_trade_cycle, h1, h2, buyPhase]

/-- C10.  The momentum computation divides by the bar open with no
guard: on a snapshot whose bar has `Open = 0` (a non-negative price, so
inside the stated domain) the evaluator raises an uncaught
`ZeroDivisionError`, modelled as `none` — the evaluation is not total
over the input domain.  With a harmless bar it succeeds. -/
theorem C10_zero_open_crash :
    analyze_market (some [(tickREL, ⟨0, 0⟩)]) = none ∧
    analyze_market (some [(tickREL, ⟨1, 1⟩)]) = some [] := by
  constructor <;> with_unfolding_all rfl

/-- C6 counterexample.  RELIANCE.NS and INFY.NS carry the same bar, so
their momenta tie at 1/100; the evaluator returns RELIANCE.NS first
(stable sort keeps watchlist order) even though INFY.NS is the smaller
identifier, refuting the claimed identifier-ascending tie-break. -/
theorem C6_counterexample :
    analyze_market (some [(tickREL, ⟨100, 101⟩), (tickINF, ⟨100, 101⟩)]) =
      some [⟨tickREL, 101, 1/100⟩, ⟨tickINF, 101, 1/100⟩] ∧
    tickINF < tickREL := by
  constructor
  · with_unfolding_all rfl
  · with_unfolding_all decide

/-! Rounding and log-sum lemmas for the cash-conservation claim. -/

lemma pyRoundInt_intCast (n : ℤ) : pyRoundInt (n : ℚ) = n := by
  unfold pyRoundInt
  rw [Int.floor_intCast]
  norm_num

/-- On the cent grid the two-decimal rounding is the identity. -/
lemma pyRound2_cent {q : ℚ} (h : centPrice q) : pyRound2 q = q := by
  unfold pyRound2
  have h1 : ((q * 100).num : ℚ) = q * 100 := (Rat.den_eq_one_iff _).1 h
  rw [← h1, pyRoundInt_intCast, h1]
  exact mul_div_cancel_right₀ q (by norm_num)

lemma logBuySum_append (l1 l2 : List TradeRecord) :
    logBuySum (l1 ++ l2) = logBuySum l1 + logBuySum l2 := by
  simp [logBuySum]

lemma logSellSum_append (l1 l2 : List TradeRecord) :
    logSellSum (l1 ++ l2) = logSellSum l1 + logSellSum l2 := by
  simp [logSellSum]

/-- The audited quantity of the conservation claim: recorded BUY cost
minus recorded SELL proceeds plus cash. -/
def reconcile (L : Ledger) : ℚ :=
  logBuySum L.trade_log - logSellSum L.trade_log + L.balance

lemma reconcile_buyStep {L L1 : Ledger} {t : Instrument} {p : ℚ}
    (hc : pyRound2 p = p) (h : buyStep L t p = some L1) :
    reconcile L1 = reconcile L := by
  cases hk : hasKey L.portfolio t with
  | true =>
    rw [buyStep_of_key L t p hk] at h
    obtain rfl := Option.some_inj.mp h
    rfl
  | false =>
    by_cases hgt : L.balance * MAX_ALLOCATION_PER_TRADE > p
    · by_cases hp0 : p = 0
      · rw [hp0, buyStep_crash L t hk (by rwa [hp0] at hgt)] at h
        cases h
      · rw [buyStep_exec L t p hk hgt hp0] at h
        obtain rfl := Option.some_inj.mp h
        unfold reconcile
        dsimp only
        rw [logBuySum_append, logSellSum_append]
        have hb : logBuySum [⟨Action.BUY, t, pyRound2 p,
            ⌊L.balance * MAX_ALLOCATION_PER_TRADE / p⌋, 0⟩] =
            pyRound2 p * (⌊L.balance * MAX_ALLOCATION_PER_TRADE / p⌋ : ℚ) := by
          simp [logBuySum]
        have hs : logSellSum [⟨Action.BUY, t, pyRound2 p,
            ⌊L.balance * MAX_ALLOCATION_PER_TRADE / p⌋, 0⟩] = 0 := by
          simp [logSellSum]
        rw [hb, hs, hc]
        ring
    · rw [buyStep_no_alloc L t p hgt] at h
      obtain rfl := Option.some_inj.mp h
      rfl

lemma reconcile_sellStep {L : Ledger} {t : Instrument} {cp : ℚ}
    (hc : pyRound2 cp = cp) : reconcile (sellStep L t cp) = reconcile L := by
  unfold sellStep
  cases hl : lookupPos L.portfolio t with
  | none => rfl
  | some pos =>
    by_cases hcond : (cp - pos.buy_price) / pos.buy_price ≥ TARGET_PROFIT ∨
        (cp - pos.buy_price) / pos.buy_price ≤ -STOP_LOSS
    · simp only [hcond, if_true]
      unfold applySell reconcile
      rw [hl]
      dsimp only
      rw [logBuySum_append, logSellSum_append]
      have hb : logBuySum [⟨Action.SELL, t, pyRound2 cp, pos.qty,
          pyRound2 ((pos.qty : ℚ) * cp - (pos.qty : ℚ) * pos.buy_price)⟩] = 0 := by
        simp [logBuySum]
      have hs : logSellSum [⟨Action.SELL, t, pyRound2 cp, pos.qty,
          pyRound2 ((pos.qty : ℚ) * cp - (pos.qty : ℚ) * pos.buy_price)⟩] =
          pyRound2 cp * (pos.qty : ℚ) := by
        simp [logSellSum]
      rw [hb, hs, hc]
      ring
    · simp only [hcond, if_false]

lemma reconcile_applyEvent {L : Ledger} {e : Event} (hc : centPrice e.price) :
    reconcile (applyEvent L e) = reconcile L := by
  cases e with
  | buy t p =>
    cases hb : buyStep L t p with
    | none => simp [applyEvent, hb]
    | some L1 =>
      simp only [applyEvent, hb, Option.getD_some]
      exact reconcile_buyStep (pyRound2_cent hc) hb
  | sell t cp => exact reconcile_sellStep (pyRound2_cent hc)

lemma reconcile_runEvents : ∀ (es : List Event) (L : Ledger),
    (∀ e ∈ es, centPrice e.price) → reconcile (runEvents L es) = reconcile L
  | [], _, _ => rfl
  | e :: es, L, h => by
    have h1 : runEvents L (e :: es) = runEvents (applyEvent L e) es := rfl
    rw [h1, reconcile_runEvents es (applyEvent L e)
      (fun x hx => h x (List.mem_cons_of_mem e hx))]
    exact reconcile_applyEvent (h e (List.mem_cons_self e es))

/-- C1 counterexample.  The trade log records prices rounded to two
decimals while cash moves by the exact amount, so one buy at the
off-grid price 1/3 (from the initial capital) already breaks the
recorded-log conservation: the recorded BUY cost is 0.33 × 600000 =
198000 but cash fell by 200000. -/
theorem C1_counterexample :
    logBuySum (runEvents (initLedger INITIAL_CAPITAL)
        [Event.buy tickTCS (1/3)]).trade_log -
      logSellSum (runEvents (initLedger INITIAL_CAPITAL)
        [Event.buy tickTCS (1/3)]).trade_log +
      (runEvents (initLedger INITIAL_CAPITAL)
        [Event.buy tickTCS (1/3)]).balance ≠ INITIAL_CAPITAL := by
  have h : (998000 : ℚ) ≠ INITIAL_CAPITAL := by norm_num [INITIAL_CAPITAL]
  intro hc
  exact h ((by with_unfolding_all rfl : (998000 : ℚ) = _).trans hc)

/-- C1 amended.  For every sequence of buy and sell applications from
any initial capital whose applied prices lie on the cent grid (integer
multiples of 0.01, so the two-decimal rounding of recorded prices is
exact), the sum of recorded BUY costs minus recorded SELL proceeds plus
current cash equals the initial capital. -/
theorem C1_amended (c0 : ℚ) (es : List Event)
    (h : ∀ e ∈ es, centPrice e.price) :
    logBuySum (runEvents (initLedger c0) es).trade_log -
      logSellSum (runEvents (initLedger c0) es).trade_log +
      (runEvents (initLedger c0) es).balance = c0 := by
  show reconcile (runEvents (initLedger c0) es) = c0
  rw [reconcile_runEvents es (initLedger c0) h]
  simp [reconcile, initLedger, logBuySum, logSellSum]

/-- Witness for C1 amended at a concrete cent-grid sequence. -/
theorem C1_amended_witness :
    logBuySum (runEvents (initLedger 10) [Event.buy tickTCS 2]).trade_log -
      logSellSum (runEvents (initLedger 10) [Event.buy tickTCS 2]).trade_log +
      (runEvents (initLedger 10) [Event.buy tickTCS 2]).balance = 10 :=
  C1_amended 10 [Event.buy tickTCS 2]
    (by
      intro e he
      rcases List.mem_singleton.1 he with rfl
      exact (show ((2 : ℚ) * 100).den = 1 by with_unfolding_all rfl))

/-! Key-uniqueness lemmas for the at-most-one-position claim. -/

lemma hasKey_iff {P : List (Instrument × Position)} {t : Instrument} :
    hasKey P t = true ↔ t ∈ P.map Prod.fst := by
  simp only [hasKey, List.any_eq_true, List.mem_map, beq_iff_eq]

lemma buyStep_keys {L L1 : Ledger} {t : Instrument} {p : ℚ}
    (h : buyStep L t p = some L1) :
    L1.portfolio.map Prod.fst = L.portfolio.map Prod.fst ∨
    (hasKey L.portfolio t = false ∧
      L1.portfolio.map Prod.fst = L.portfolio.map Prod.fst ++ [t]) := by
  cases hk : hasKey L.portfolio t with
  | true =>
    rw [buyStep_of_key L t p hk] at h
    obtain rfl := Option.some_inj.mp h
    exact Or.inl rfl
  | false =>
    by_cases hgt : L.balance * MAX_ALLOCATION_PER_TRADE > p
    · by_cases hp0 : p = 0
      · rw [hp0, buyStep_crash L t hk (by rwa [hp0] at hgt)] at h
        cases h
      · rw [buyStep_exec L t p hk hgt hp0] at h
        obtain rfl := Option.some_inj.mp h
        refine Or.inr ⟨by simp [hk], ?_⟩
        simp
    · rw [buyStep_no_alloc L t p hgt] at h
      obtain rfl := Option.some_inj.mp h
      exact Or.inl rfl

lemma nodup_buyStep {L L1 : Ledger} {t : Instrument} {p : ℚ}
    (h : buyStep L t p = some L1)
    (hn : (L.portfolio.map Prod.fst).Nodup) :
    (L1.portfolio.map Prod.fst).Nodup := by
  rcases buyStep_keys h with h1 | ⟨hk, h1⟩
  · rwa [h1]
  · rw [h1]
    have ht : t ∉ L.portfolio.map Prod.fst := by
      intro hmem
      rw [← hasKey_iff] at hmem
      rw [hk] at hmem
      cases hmem
    refine List.Nodup.append hn (List.nodup_singleton t) ?_
    intro a ha hb
    rcases List.mem_singleton.1 hb with rfl
    exact ht ha

lemma nodup_buyPhase (sigs : List Signal) : ∀ (L : Ledger),
    (L.portfolio.map Prod.fst).Nodup →
    ((buyPhase sigs L).1.portfolio.map Prod.fst).Nodup := by
  induction sigs with
  | nil => intro L h; exact h
  | cons s rest ih =>
    intro L h
    cases hb : buyStep L s.ticker s.price with
    | none => simpa [buyPhase, hb] using h
    | some L1 =>
      simp only [buyPhase, hb]
      exact ih L1 (nodup_buyStep hb h)

lemma nodup_sellPhase (data : Option Snapshot) (L : Ledger)
    (h : (L.portfolio.map Prod.fst).Nodup) :
    ((sellPhase data L).portfolio.map Prod.fst).Nodup := by
  have hs : (sellPhase data L).portfolio.Sublist L.portfolio :=
    List.filter_sublist L.portfolio
  exact h.sublist (hs.map Prod.fst)

lemma nodup_cycle (mo : Bool) (data : Option Snapshot) (L : Ledger)
    (h : (L.portfolio.map Prod.fst).Nodup) :
    (((execute_trade_cycle mo data L).1).portfolio.map Prod.fst).Nodup := by
  cases mo with
  | false => simpa [execute_trade_cycle] using h
  | true =>
    cases ha : analyze_market data with
    | none =>
      simp only [execute_trade_cycle, ha, if_true]
      exact nodup_sellPhase data L h
    | some opps =>
      simp only [execute_trade_cycle, ha, if_true]
      exact nodup_buyPhase opps _ (nodup_sellPhase data L h)

lemma nodup_runCycles : ∀ (cs : List (Bool × Option Snapshot)) (L : Ledger),
    (L.portfolio.map Prod.fst).Nodup →
    ((runCycles cs L).portfolio.map Prod.fst).Nodup
  | [], _, h => h
  | c :: cs, L, h =>
    nodup_runCycles cs (execute_trade_cycle c.1 c.2 L).1 (nodup_cycle c.1 c.2 L h)

/-- C3.  Every ledger state reachable by any sequence of trade cycles
from a fresh session has pairwise distinct position keys (at most one
open position per instrument), and the buy application never mutates a
ledger that already holds a position for the candidate instrument. -/
theorem C3_unique_positions :
    (∀ (c0 : ℚ) (cs : List (Bool × Option Snapshot)),
      ((runCycles cs (initLedger c0)).portfolio.map Prod.fst).Nodup) ∧
    (∀ (L : Ledger) (t : Instrument) (p : ℚ),
      t ∈ L.portfolio.map Prod.fst → buyStep L t p = some L) := by
  constructor
  · intro c0 cs
    exact nodup_runCycles cs (initLedger c0) (by simp [initLedger])
  · intro L t p hmem
    exact buyStep_of_key L t p (hasKey_iff.2 hmem)

/-- Witness for C3: the empty cycle sequence, and a held instrument
whose repeated buy is a no-op. -/
theorem C3_unique_positions_witness :
    ((runCycles [] (initLedger 0)).portfolio.map Prod.fst).Nodup ∧
    buyStep ⟨100, [(tickTCS, ⟨1, 10⟩)], []⟩ tickTCS 5 =
      some ⟨100, [(tickTCS, ⟨1, 10⟩)], []⟩ :=
  ⟨C3_unique_positions.1 0 [],
   C3_unique_positions.2 ⟨100, [(tickTCS, ⟨1, 10⟩)], []⟩ tickTCS 5
     (by with_unfolding_all decide)⟩

/-! Lemmas for the buy-then-sell round trip. -/

lemma find?_append_of_none {α : Type} (p : α → Bool) :
    ∀ (l1 l2 : List α), l1.find? p = none → (l1 ++ l2).find? p = l2.find? p
  | [], _, _ => rfl
  | a :: l1, l2, h => by
    cases hp : p a with
    | true =>
      rw [List.find?_cons_of_pos l1 hp] at h
      cases h
    | false =>
      rw [List.find?_cons_of_neg l1 (by simp [hp])] at h
      rw [List.cons_append, List.find?_cons_of_neg (l1 ++ l2) (by simp [hp])]
      exact find?_append_of_none p l1 l2 h

lemma lookupPos_append_self (P : List (Instrument × Position)) (t : Instrument)
    (pos : Position) (h : hasKey P t = false) :
    lookupPos (P ++ [(t, pos)]) t = some pos := by
  unfold lookupPos
  rw [find?_append_of_none _ P _ ?hnone]
  · simp [List.find?]
  case hnone =>
    rw [List.find?_eq_none]
    intro e he hbeq
    have hk : hasKey P t = true := by
      unfold hasKey
      rw [List.any_eq_true]
      exact ⟨e, he, hbeq⟩
    rw [h] at hk
    cases hk

lemma pyRound2_zero : pyRound2 0 = 0 := by with_unfolding_all rfl

/-- C9.  Buying an instrument at price `p` (the code chooses the
quantity `q` from the sizing rule; `q > 0` whenever the buy executes)
and then applying the unconditional ledger sell at the same price `p`
returns cash exactly to its pre-buy value and appends a SELL record
with realized PnL 0. -/
theorem C9_round_trip (L : Ledger) (t : Instrument) (p : ℚ)
    (hp : 0 < p) (hk : hasKey L.portfolio t = false)
    (halloc : p < L.balance * MAX_ALLOCATION_PER_TRADE) :
    ∃ (L1 : Ledger) (q : ℤ), 0 < q ∧ buyStep L t p = some L1 ∧
      (applySell L1 t p).balance = L.balance ∧
      (applySell L1 t p).trade_log =
        L1.trade_log ++ [⟨Action.SELL, t, pyRound2 p, q, 0⟩] := by
  have hexec := buyStep_exec L t p hk halloc (ne_of_gt hp)
  refine ⟨⟨L.balance - (⌊L.balance * MAX_ALLOCATION_PER_TRADE / p⌋ : ℚ) * p,
      L.portfolio ++ [(t, ⟨⌊L.balance * MAX_ALLOCATION_PER_TRADE / p⌋, p⟩)],
      L.trade_log ++ [⟨Action.BUY, t, pyRound2 p,
        ⌊L.balance * MAX_ALLOCATION_PER_TRADE / p⌋, 0⟩]⟩,
    ⌊L.balance * MAX_ALLOCATION_PER_TRADE / p⌋, ?_, hexec, ?_, ?_⟩
  · have h1 : (1 : ℚ) ≤ L.balance * MAX_ALLOCATION_PER_TRADE / p :=
      (one_le_div hp).2 halloc.le
    have h2 : (1 : ℤ) ≤ ⌊L.balance * MAX_ALLOCATION_PER_TRADE / p⌋ :=
      Int.le_floor.2 (by exact_mod_cast h1)
    exact lt_of_lt_of_le zero_lt_one h2
  · unfold applySell
    rw [lookupPos_append_self L.portfolio t _ hk]
    dsimp only
    ring
  · unfold applySell
    rw [lookupPos_append_self L.portfolio t _ hk]
    dsimp only
    rw [sub_self, pyRound2_zero]

/-- Witness for C9 at cash 1000, price 100 (quantity 2). -/
theorem C9_round_trip_witness :
    ∃ (L1 : Ledger) (q : ℤ), 0 < q ∧
      buyStep (initLedger 1000) tickTCS 100 = some L1 ∧
      (applySell L1 tickTCS 100).balance = (initLedger 1000).balance ∧
      (applySell L1 tickTCS 100).trade_log =
        L1.trade_log ++ [⟨Action.SELL, tickTCS, pyRound2 100, q, 0⟩] :=
  C9_round_trip (initLedger 1000) tickTCS 100 (by norm_num)
    (by with_unfolding_all rfl)
    (by norm_num [initLedger, MAX_ALLOCATION_PER_TRADE])

/-! Lemmas characterising the sell phase, for the exit-rule claim. -/

/-- Whether the sell loop marks one portfolio entry for sale, and under
which ticker. -/
def sellMark (data : Option Snapshot) (e : Instrument × Position) : Option Instrument :=
  match getClose data e.1 with
  | none => none
  | some cp =>
    if (cp - e.2.buy_price) / e.2.buy_price ≥ TARGET_PROFIT ∨
       (cp - e.2.buy_price) / e.2.buy_price ≤ -STOP_LOSS then some e.1 else none

lemma sellMark_eq_none {data : Option Snapshot} {e : Instrument × Position}
    (hc : getClose data e.1 = none) : sellMark data e = none := by
  unfold sellMark
  rw [hc]

lemma sellMark_eq_cond {data : Option Snapshot} {e : Instrument × Position} {cp : ℚ}
    (hc : getClose data e.1 = some cp) :
    sellMark data e =
      if (cp - e.2.buy_price) / e.2.buy_price ≥ TARGET_PROFIT ∨
         (cp - e.2.buy_price) / e.2.buy_price ≤ -STOP_LOSS then some e.1 else none := by
  unfold sellMark
  rw [hc]

lemma sellLoop_cons_nodata {data : Option Snapshot} {t : Instrument} {pos : Position}
    {rest : List (Instrument × Position)} {bal : ℚ} {log : List TradeRecord}
    {ts : List Instrument} (hc : getClose data t = none) :
    sellLoop data ((t, pos) :: rest) bal log ts = sellLoop data rest bal log ts := by
  simp only [sellLoop, hc]

lemma sellLoop_cons_sell {data : Option Snapshot} {t : Instrument} {pos : Position}
    {rest : List (Instrument × Position)} {bal : ℚ} {log : List TradeRecord}
    {ts : List Instrument} {cp : ℚ} (hc : getClose data t = some cp)
    (hcond : (cp - pos.buy_price) / pos.buy_price ≥ TARGET_PROFIT ∨
      (cp - pos.buy_price) / pos.buy_price ≤ -STOP_LOSS) :
    sellLoop data ((t, pos) :: rest) bal log ts =
      sellLoop data rest (bal + (pos.qty : ℚ) * cp)
        (log ++ [⟨Action.SELL, t, pyRound2 cp, pos.qty,
          pyRound2 ((pos.qty : ℚ) * cp - (pos.qty : ℚ) * pos.buy_price)⟩])
        (ts ++ [t]) := by
  simp only [sellLoop, hc]
  rw [if_pos hcond]

lemma sellLoop_cons_skip {data : Option Snapshot} {t : Instrument} {pos : Position}
    {rest : List (Instrument × Position)} {bal : ℚ} {log : List TradeRecord}
    {ts : List Instrument} {cp : ℚ} (hc : getClose data t = some cp)
    (hcond : ¬ ((cp - pos.buy_price) / pos.buy_price ≥ TARGET_PROFIT ∨
      (cp - pos.buy_price) / pos.buy_price ≤ -STOP_LOSS)) :
    sellLoop data ((t, pos) :: rest) bal log ts = sellLoop data rest bal log ts := by
  simp only [sellLoop, hc]
  rw [if_neg hcond]

/-- The tickers collected for deletion are exactly the marks of the
walked entries, in order. -/
lemma sellLoop_toSell (data : Option Snapshot) :
    ∀ (items : List (Instrument × Position)) (bal : ℚ) (log : List TradeRecord)
      (ts : List Instrument),
      (sellLoop data items bal log ts).2.2 = ts ++ items.filterMap (sellMark data)
  | [], bal, log, ts => by simp [sellLoop]
  | (t, pos) :: rest, bal, log, ts => by
    cases hc : getClose data t with
    | none =>
      rw [sellLoop_cons_nodata hc, sellLoop_toSell data rest bal log ts]
      have hm : sellMark data (t, pos) = none := sellMark_eq_none hc
      simp [List.filterMap_cons, hm]
    | some cp =>
      by_cases hcond : (cp - pos.buy_price) / pos.buy_price ≥ TARGET_PROFIT ∨
          (cp - pos.buy_price) / pos.buy_price ≤ -STOP_LOSS
      · rw [sellLoop_cons_sell hc hcond, sellLoop_toSell data rest _ _ _]
        have hm : sellMark data (t, pos) = some t := by
          rw [sellMark_eq_cond hc]
          exact if_pos hcond
        simp [List.filterMap_cons, hm]
      · rw [sellLoop_cons_skip hc hcond, sellLoop_toSell data rest bal log ts]
        have hm : sellMark data (t, pos) = none := by
          rw [sellMark_eq_cond hc]
          exact if_neg hcond
        simp [List.filterMap_cons, hm]

/-- The post-cycle portfolio is the old portfolio minus the marked
entries. -/
lemma sellPhase_portfolio (data : Option Snapshot) (L : Ledger) :
    (sellPhase data L).portfolio =
      L.portfolio.filter
        (fun e => !((L.portfolio.filterMap (sellMark data)).contains e.1)) := by
  unfold sellPhase
  rw [sellLoop_toSell data L.portfolio L.balance L.trade_log []]
  rw [List.nil_append]

/-- In a portfolio with pairwise distinct keys, the key determines the
position. -/
lemma eq_of_mem_keys_nodup : ∀ {P : List (Instrument × Position)},
    (P.map Prod.fst).Nodup → ∀ {t : Instrument} {a b : Position},
    (t, a) ∈ P → (t, b) ∈ P → a = b := by
  intro P
  induction P with
  | nil => intro _ t a b ha; cases ha
  | cons e P ih =>
    intro hnd t a b ha hb
    have hh : e.1 ∉ P.map Prod.fst ∧ (P.map Prod.fst).Nodup := by
      rw [List.map_cons, List.nodup_cons] at hnd
      exact hnd
    rcases List.mem_cons.1 ha with h1 | h1 <;> rcases List.mem_cons.1 hb with h2 | h2
    · rw [← h1] at h2
      exact (Prod.mk.injEq t a t b ▸ h2.symm).2
    · exfalso
      apply hh.1
      rw [← h1]
      exact List.mem_map.2 ⟨(t, b), h2, rfl⟩
    · exfalso
      apply hh.1
      rw [← h2]
      exact List.mem_map.2 ⟨(t, a), h1, rfl⟩
    · exact ih hh.2 h1 h2

/-- Membership of a held ticker in the to-sell marks reduces to the mark
of its own entry. -/
lemma mem_toSell_iff {data : Option Snapshot} {L : Ledger} {t : Instrument}
    {pos : Position} (hmem : (t, pos) ∈ L.portfolio)
    (hnd : (L.portfolio.map Prod.fst).Nodup) :
    t ∈ L.portfolio.filterMap (sellMark data) ↔
      sellMark data (t, pos) = some t := by
  constructor
  · intro h
    rcases List.mem_filterMap.1 h with ⟨e, he, hse⟩
    have ht1 : e.1 = t := by
      cases hge : getClose data e.1 with
      | none =>
        rw [sellMark_eq_none hge] at hse
        cases hse
      | some cp =>
        rw [sellMark_eq_cond hge] at hse
        by_cases hcond : (cp - e.2.buy_price) / e.2.buy_price ≥ TARGET_PROFIT ∨
            (cp - e.2.buy_price) / e.2.buy_price ≤ -STOP_LOSS
        · rw [if_pos hcond] at hse
          exact Option.some_inj.mp hse
        · rw [if_neg hcond] at hse
          cases hse
    have he2 : (t, e.2) ∈ L.portfolio := by
      rw [← ht1]
      exact he
    have hpos : e.2 = pos := eq_of_mem_keys_nodup hnd he2 hmem
    have het : (t, pos) = e := by
      rw [← ht1, ← hpos]
    rw [het]
    exact hse
  · intro h
    exact List.mem_filterMap.2 ⟨(t, pos), hmem, h⟩

/-- C7.  For a held position whose instrument has a close price in the
snapshot, the cycle closes it exactly when the exit formula fires
(pnlPct ≥ 0.02 or pnlPct ≤ −0.01); a position whose instrument is
absent from the snapshot survives the cycle unchanged. -/
theorem C7_exit_rule (data : Snapshot) (L : Ledger) (t : Instrument) (pos : Position)
    (hmem : (t, pos) ∈ L.portfolio)
    (hnd : (L.portfolio.map Prod.fst).Nodup) :
    (getClose (some data) t = none → (t, pos) ∈ (sellPhase (some data) L).portfolio) ∧
    (∀ cp : ℚ, getClose (some data) t = some cp →
      (((cp - pos.buy_price) / pos.buy_price ≥ TARGET_PROFIT ∨
        (cp - pos.buy_price) / pos.buy_price ≤ -STOP_LOSS) ↔
        t ∉ (sellPhase (some data) L).portfolio.map Prod.fst)) := by
  rw [sellPhase_portfolio]
  constructor
  · intro hc
    have hnm : t ∉ L.portfolio.filterMap (sellMark (some data)) := by
      intro hmemS
      have h2 := (mem_toSell_iff hmem hnd).1 hmemS
      rw [sellMark_eq_none hc] at h2
      cases h2
    refine List.mem_filter.2 ⟨hmem, ?_⟩
    have hcontains :
        (L.portfolio.filterMap (sellMark (some data))).contains t = false := by
      rw [Bool.eq_false_iff]
      intro hct
      exact hnm (List.elem_iff.1 hct)
    show (!((L.portfolio.filterMap (sellMark (some data))).contains (t, pos).1)) = true
    rw [hcontains]
    rfl
  · intro cp hc
    constructor
    · intro hcond hkeys
      rcases List.mem_map.1 hkeys with ⟨e, hef, he1⟩
      have hfe := List.mem_filter.1 hef
      have htS : t ∈ L.portfolio.filterMap (sellMark (some data)) :=
        (mem_toSell_iff hmem hnd).2 (by rw [sellMark_eq_cond hc]; exact if_pos hcond)
      have hcf : (L.portfolio.filterMap (sellMark (some data))).contains e.1 = false := by
        have := hfe.2
        rwa [Bool.not_eq_true'] at this
      rw [he1] at hcf
      rw [Bool.eq_false_iff] at hcf
      exact hcf (List.elem_iff.2 htS)
    · intro hnk
      by_contra hcond
      have hmark : sellMark (some data) (t, pos) = none := by
        rw [sellMark_eq_cond hc]
        exact if_neg hcond
      have hnm : t ∉ L.portfolio.filterMap (sellMark (some data)) := by
        intro hmemS
        have h2 := (mem_toSell_iff hmem hnd).1 hmemS
        rw [hmark] at h2
        cases h2
      have hcontains :
          (L.portfolio.filterMap (sellMark (some data))).contains t = false := by
        rw [Bool.eq_false_iff]
        intro hct
        exact hnm (List.elem_iff.1 hct)
      have hsurv : (t, pos) ∈ L.portfolio.filter
          (fun e => !((L.portfolio.filterMap (sellMark (some data))).contains e.1)) := by
        refine List.mem_filter.2 ⟨hmem, ?_⟩
        show (!((L.portfolio.filterMap (sellMark (some data))).contains (t, pos).1)) = true
        rw [hcontains]
        rfl
      exact hnk (List.mem_map.2 ⟨(t, pos), hsurv, rfl⟩)

/-- Witness for C7: a take-profit exit at exactly +2 percent. -/
theorem C7_exit_rule_witness :
    ((102 - (100 : ℚ)) / 100 ≥ TARGET_PROFIT ∨
      (102 - (100 : ℚ)) / 100 ≤ -STOP_LOSS) ↔
      tickTCS ∉ (sellPhase (some [(tickTCS, ⟨100, 102⟩)])
        ⟨0, [(tickTCS, ⟨1, 100⟩)], []⟩).portfolio.map Prod.fst :=
  (C7_exit_rule [(tickTCS, ⟨100, 102⟩)] ⟨0, [(tickTCS, ⟨1, 100⟩)], []⟩ tickTCS ⟨1, 100⟩
    (by with_unfolding_all decide) (by with_unfolding_all decide)).2 102
    (by with_unfolding_all rfl)

/-! Sort-stability and membership lemmas for the signal evaluator. -/

lemma filter_orderedInsert_eq (c : ℚ) (a : Signal) (ha : a.change = c) :
    ∀ l : List Signal,
      (List.orderedInsert sigGE a l).filter (fun s => decide (s.change = c)) =
        a :: l.filter (fun s => decide (s.change = c))
  | [] => by simp [ha]
  | b :: l => by
    by_cases hr : sigGE a b
    · rw [List.orderedInsert_of_le sigGE l hr]
      simp [List.filter_cons, ha]
    · have hb : ¬ (b.change = c) := by
        intro hbc
        exact hr (le_of_eq (hbc.trans ha.symm))
      simp only [List.orderedInsert, if_neg hr]
      simp [List.filter_cons, hb, filter_orderedInsert_eq c a ha l]

lemma filter_orderedInsert_ne (c : ℚ) (a : Signal) (ha : ¬ a.change = c) :
    ∀ l : List Signal,
      (List.orderedInsert sigGE a l).filter (fun s => decide (s.change = c)) =
        l.filter (fun s => decide (s.change = c))
  | [] => by simp [ha]
  | b :: l => by
    by_cases hr : sigGE a b
    · rw [List.orderedInsert_of_le sigGE l hr]
      simp [List.filter_cons, ha]
    · simp only [List.orderedInsert, if_neg hr]
      by_cases hbc : b.change = c <;>
        simp [List.filter_cons, hbc, filter_orderedInsert_ne c a ha l]

/-- Stability of the stable descending sort: inside each momentum class
the input order is preserved. -/
lemma filter_insertionSort (c : ℚ) : ∀ l : List Signal,
    (List.insertionSort sigGE l).filter (fun s => decide (s.change = c)) =
      l.filter (fun s => decide (s.change = c))
  | [] => rfl
  | a :: l => by
    simp only [List.insertionSort]
    by_cases ha : a.change = c
    · rw [filter_orderedInsert_eq c a ha (List.insertionSort sigGE l)]
      simp [List.filter_cons, ha, filter_insertionSort c l]
    · rw [filter_orderedInsert_ne c a ha (List.insertionSort sigGE l)]
      simp [List.filter_cons, ha, filter_insertionSort c l]

lemma gather_nil : ∀ wl : List Instrument, gather ([] : Snapshot) wl = some []
  | [] => rfl
  | _ :: wl => gather_nil wl

lemma gather_cons_none {data : Snapshot} {t : Instrument} {wl : List Instrument}
    (hl : lookupBar data t = none) : gather data (t :: wl) = gather data wl := by
  simp only [gather, hl]

lemma gather_cons_zero {data : Snapshot} {t : Instrument} {wl : List Instrument}
    {b : Bar} (hl : lookupBar data t = some b) (hz : b.Open = 0) :
    gather data (t :: wl) = none := by
  simp only [gather, hl]
  rw [if_pos hz]

lemma gather_cons_propagate {data : Snapshot} {t : Instrument} {wl : List Instrument}
    {b : Bar} (hl : lookupBar data t = some b) (hz : ¬ b.Open = 0)
    (hgr : gather data wl = none) : gather data (t :: wl) = none := by
  simp only [gather, hl, hgr]
  rw [if_neg hz]

lemma gather_cons_hit {data : Snapshot} {t : Instrument} {wl : List Instrument}
    {b : Bar} {tail : List Signal} (hl : lookupBar data t = some b)
    (hz : ¬ b.Open = 0) (hm : (b.Close - b.Open) / b.Open > 0.005)
    (hgr : gather data wl = some tail) :
    gather data (t :: wl) =
      some (⟨t, b.Close, (b.Close - b.Open) / b.Open⟩ :: tail) := by
  simp only [gather, hl, hgr]
  rw [if_neg hz, if_pos hm]

lemma gather_cons_miss {data : Snapshot} {t : Instrument} {wl : List Instrument}
    {b : Bar} {tail : List Signal} (hl : lookupBar data t = some b)
    (hz : ¬ b.Open = 0) (hm : ¬ (b.Close - b.Open) / b.Open > 0.005)
    (hgr : gather data wl = some tail) : gather data (t :: wl) = some tail := by
  simp only [gather, hl, hgr]
  rw [if_neg hz, if_neg hm]

/-- The collected signals are exactly the watchlist instruments present
in the snapshot whose momentum beats the threshold. -/
lemma gather_mem (data : Snapshot) : ∀ (wl : List Instrument) (g : List Signal),
    gather data wl = some g → ∀ s : Signal,
    (s ∈ g ↔ ∃ b : Bar, s.ticker ∈ wl ∧ lookupBar data s.ticker = some b ∧
      b.Open ≠ 0 ∧ (b.Close - b.Open) / b.Open > 0.005 ∧
      s = ⟨s.ticker, b.Close, (b.Close - b.Open) / b.Open⟩) := by
  intro wl
  induction wl with
  | nil =>
    intro g hg s
    obtain rfl : ([] : List Signal) = g := Option.some_inj.mp hg
    simp
  | cons t wl ih =>
    intro g hg s
    cases hl : lookupBar data t with
    | none =>
      rw [gather_cons_none hl] at hg
      rw [ih g hg s]
      constructor
      · rintro ⟨b, hw, hlb, hz, hm, hs⟩
        exact ⟨b, List.mem_cons_of_mem t hw, hlb, hz, hm, hs⟩
      · rintro ⟨b, hw, hlb, hz, hm, hs⟩
        rcases List.mem_cons.1 hw with rfl | hw2
        · rw [hl] at hlb
          cases hlb
        · exact ⟨b, hw2, hlb, hz, hm, hs⟩
    | some b =>
      by_cases hz : b.Open = 0
      · rw [gather_cons_zero hl hz] at hg
        cases hg
      · cases hgr : gather data wl with
        | none =>
          rw [gather_cons_propagate hl hz hgr] at hg
          cases hg
        | some tail =>
          by_cases hm : (b.Close - b.Open) / b.Open > 0.005
          · rw [gather_cons_hit hl hz hm hgr] at hg
            obtain rfl := (Option.some_inj.mp hg).symm
            constructor
            · intro hs
              rcases List.mem_cons.1 hs with rfl | hs2
              · exact ⟨b, List.mem_cons_self t wl, hl, hz, hm, rfl⟩
              · rcases (ih tail hgr s).1 hs2 with ⟨b2, hw, hlb, hz2, hm2, hs3⟩
                exact ⟨b2, List.mem_cons_of_mem t hw, hlb, hz2, hm2, hs3⟩
            · rintro ⟨b2, hw, hlb, hz2, hm2, hs3⟩
              rcases List.mem_cons.1 hw with heq | hw2
              · rw [heq, hl] at hlb
                obtain rfl := Option.some_inj.mp hlb
                rw [hs3, heq]
                exact List.mem_cons_self _ _
              · exact List.mem_cons_of_mem _
                  ((ih tail hgr s).2 ⟨b2, hw2, hlb, hz2, hm2, hs3⟩)
          · rw [gather_cons_miss hl hz hm hgr] at hg
            obtain rfl := (Option.some_inj.mp hg).symm
            rw [ih g hgr s]
            constructor
            · rintro ⟨b2, hw, hlb, hz2, hm2, hs3⟩
              exact ⟨b2, List.mem_cons_of_mem t hw, hlb, hz2, hm2, hs3⟩
            · rintro ⟨b2, hw, hlb, hz2, hm2, hs3⟩
              rcases List.mem_cons.1 hw with heq | hw2
              · rw [heq, hl] at hlb
                obtain rfl := Option.some_inj.mp hlb
                exact absurd hm2 hm
              · exact ⟨b2, hw2, hlb, hz2, hm2, hs3⟩

/-- C6 amended.  For every watchlist and snapshot on which the evaluator
does not crash, the result contains exactly the watchlist instruments
present in the snapshot whose momentum exceeds 0.005, is ordered
descending by momentum, and ties of equal momentum keep the watchlist
order (the stable-sort filter identity), not identifier-ascending
order. -/
theorem C6_amended (wl : List Instrument) (data : Snapshot) (l : List Signal)
    (h : analyze_market_w wl (some data) = some l) :
    l.Sorted sigGE ∧
    (∀ s : Signal, s ∈ l ↔ ∃ b : Bar, s.ticker ∈ wl ∧
      lookupBar data s.ticker = some b ∧ b.Open ≠ 0 ∧
      (b.Close - b.Open) / b.Open > 0.005 ∧
      s = ⟨s.ticker, b.Close, (b.Close - b.Open) / b.Open⟩) ∧
    (∀ g : List Signal, gather data wl = some g → ∀ c : ℚ,
      l.filter (fun s => decide (s.change = c)) =
        g.filter (fun s => decide (s.change = c))) := by
  by_cases hd : data.isEmpty
  · obtain rfl : data = [] := List.isEmpty_iff.1 hd
    have hl : some ([] : List Signal) = some l := by
      simpa [analyze_market_w] using h
    obtain rfl := Option.some_inj.mp hl
    refine ⟨List.sorted_nil, ?_, ?_⟩
    · intro s
      simp [lookupBar, List.find?]
    · intro g hg c
      rw [gather_nil wl] at hg
      obtain rfl := Option.some_inj.mp hg
      rfl
  · have hmap : (gather data wl).map (List.insertionSort sigGE) = some l := by
      simpa [analyze_market_w, hd] using h
    rcases Option.map_eq_some'.1 hmap with ⟨g, hg, rfl⟩
    refine ⟨List.sorted_insertionSort sigGE g, ?_, ?_⟩
    · intro s
      rw [(List.perm_insertionSort sigGE g).mem_iff]
      exact gather_mem data wl g hg s
    · intro g2 hg2 c
      obtain rfl : g2 = g := by
        rw [hg] at hg2
        exact (Option.some_inj.mp hg2).symm
      exact filter_insertionSort c g2

/-- Witness for C6 amended on a one-element watchlist. -/
theorem C6_amended_witness :
    List.Sorted sigGE [(⟨tickTCS, 101, 1/100⟩ : Signal)] :=
  (C6_amended [tickTCS] [(tickTCS, ⟨100, 101⟩)] [⟨tickTCS, 101, 1/100⟩]
    (by with_unfolding_all rfl)).1

end AlgoTrader
